import Mathlib

/-!
# Verification of the raft-boltdb storage adapter

A shallow embedding of the hashicorp/raft-boltdb storage adapter
(`bolt_store.go`, the historical variants kept alongside it, and
`v2/bolt_migrate.go`), together with proofs of the specified properties.

The underlying ordered key-value engine (BoltDB) is out of scope for the
repository; per the spec it exposes named partitions ("buckets") holding
byte-string keys in ascending byte-lexicographic order, with point
get/put/delete and a forward cursor (first, last, seek-to-key-or-successor,
next).  We model a bucket as an association list of (key, value) pairs of
byte strings, kept sorted strictly ascending by byte-lexicographic key
order; bytes are `Nat` values below 256.  Machine `uint64` values are `Nat`
values below `U64 = 2 ^ 64`.
-/

namespace RaftBoltDB

/-- The modulus of a 64-bit unsigned integer, 2 ^ 64. -/
def U64 : Nat := 18446744073709551616

/-- The big-endian base-256 digit string of `u`, `n` bytes wide: the most
significant byte `u / 256 ^ (n - 1)` first, then the remaining `n - 1`
bytes of `u mod 256 ^ (n - 1)`. -/
def beBytes : Nat → Nat → List Nat
  | 0, _ => []
  | n + 1, u => u / 256 ^ n :: beBytes n (u % 256 ^ n)

/-- Modelled from the spec: the key codec `uint64ToBytes` lives in the
repository file `util.go`, which is not among the provided sources; the
spec says log index keys are encoded as fixed-width 8-byte big-endian
integers. -/
def uint64ToBytes (u : Nat) : List Nat := beBytes 8 u

/-- Modelled from the spec: the key codec `bytesToUint64` lives in
`util.go`, absent from the provided sources; the spec says it reads the
fixed-width 8-byte big-endian representation back into the integer.  We
accumulate over the byte string, most significant byte first. -/
def bytesToUint64 (b : List Nat) : Nat :=
  b.foldl (fun acc x => acc * 256 + x) 0

/-- Byte-lexicographic strict order on byte strings: the key order of the
engine's buckets and cursors (spec: "a forward cursor that iterates keys in
ascending byte order"). -/
def lexLt : List Nat → List Nat → Bool
  | [], [] => false
  | [], _ :: _ => true
  | _ :: _, [] => false
  | a :: as, b :: bs => a < b || (a == b && lexLt as bs)

/-- A bucket of the engine: an association list of (key, value) pairs of
byte strings.  The engine keeps it sorted strictly ascending by
byte-lexicographic key order; `wfBucket` below states that invariant. -/
abbrev Bucket : Type := List (List Nat × List Nat)

/-- Engine point lookup within a bucket (`bucket.Get(key)`): the value
stored under `key`, or `none` when absent. -/
def bucketGet : Bucket → List Nat → Option (List Nat)
  | [], _ => none
  | kv :: rest, key => if kv.1 = key then some kv.2 else bucketGet rest key

/-- Engine point write within a bucket (`bucket.Put(key, val)`): inserts at
the byte-lexicographic position of `key`, replacing any existing value
under the same key. -/
def bucketPut : Bucket → List Nat → List Nat → Bucket
  | [], key, val => [(key, val)]
  | kv :: rest, key, val =>
    if lexLt key kv.1 then (key, val) :: kv :: rest
    else if key = kv.1 then (key, val) :: rest
    else kv :: bucketPut rest key val

/-- The state of one BoltStore database: the two well-known partitions
created by `initialize` (`bolt_store.go`): bucket "logs" holding the raft
log entries under encoded-index keys, and bucket "conf" holding the stable
key-value pairs. -/
structure BoltStore where
  logs : Bucket
  conf : Bucket
deriving DecidableEq

/-- A freshly initialized store: both buckets exist and are empty
(`initialize` in `bolt_store.go` creates the "logs" and "conf" buckets). -/
def emptyStore : BoltStore := { logs := [], conf := [] }

/-- The raft log record, per the spec an opaque serializable record with an
`Index` field; the remaining fields (term, type, payload) are carried
opaquely. -/
structure RaftLog where
  index : Nat
  term : Nat
  logType : Nat
  data : List Nat
deriving DecidableEq

/-- Modelled from the spec: the record codec `encodeMsgPack` lives in
`util.go`, absent from the provided sources; the spec only requires a
deterministic serialization of the record fields that round-trips exactly.
We serialize the three numeric fields fixed-width followed by the payload
bytes. -/
def encodeMsgPack (l : RaftLog) : List Nat :=
  uint64ToBytes l.index ++ uint64ToBytes l.term ++ uint64ToBytes l.logType ++ l.data

/-- Modelled from the spec: the record codec `decodeMsgPack` lives in
`util.go`, absent from the provided sources; per the spec it is the inverse
of `encodeMsgPack` on its range and fails (`CorruptRecord`) on bytes that
do not parse. -/
def decodeMsgPack (b : List Nat) : Option RaftLog :=
  if 24 ≤ b.length then
    some { index := bytesToUint64 (b.take 8),
           term := bytesToUint64 ((b.drop 8).take 8),
           logType := bytesToUint64 ((b.drop 16).take 8),
           data := b.drop 24 }
  else none

/-- Error results of the log-store operations. -/
inductive StoreErr
  | logNotFound
  | corruptRecord
deriving DecidableEq

/-- FirstIndex (`bolt_store.go` lines 124-141): a forward cursor `First`
probe on the "logs" bucket; 0 when the bucket is empty, else the decoded
smallest key. -/
def FirstIndex (st : BoltStore) : Nat :=
  match st.logs with
  | [] => 0
  | kv :: _ => bytesToUint64 kv.1

/-- LastIndex (`bolt_store.go` lines 144-161): a cursor `Last` probe on the
"logs" bucket; 0 when the bucket is empty, else the decoded largest key. -/
def LastIndex (st : BoltStore) : Nat :=
  match st.logs.getLast? with
  | none => 0
  | some kv => bytesToUint64 kv.1

/-- GetLog (`bolt_store.go` lines 164-182, the canonical point-lookup
variant): `bucket.Get(uint64ToBytes(idx))`; `LogNotFound` when absent,
otherwise the result of deserializing the stored value (a deserialization
failure is returned to the caller). -/
def GetLog (st : BoltStore) (idx : Nat) : Except StoreErr RaftLog :=
  match bucketGet st.logs (uint64ToBytes idx) with
  | none => .error .logNotFound
  | some val =>
    match decodeMsgPack val with
    | none => .error .corruptRecord
    | some r => .ok r

/-- The scan loop of the historical linear-scan GetLog (`bolt_store.go`
lines 425-454): a forward cursor walk from the first key, breaking with the
value once the decoded key equals the target, and breaking empty-handed
once the decoded key exceeds the target. -/
def getLogScan : Bucket → Nat → Option (List Nat)
  | [], _ => none
  | kv :: rest, idx =>
    if bytesToUint64 kv.1 = idx then some kv.2
    else if bytesToUint64 kv.1 > idx then none
    else getLogScan rest idx

/-- The historical linear-scan GetLog (`bolt_store.go` lines 425-454).
`log0` is the caller-supplied output record: that variant calls
`decodeMsgPack(val, log)` discarding its error and returns nil, so on a
value that fails to deserialize the caller observes success with its output
record unmodified, which we model by `Option.getD log0`. -/
def GetLogLinear (st : BoltStore) (idx : Nat) (log0 : RaftLog) :
    Except StoreErr RaftLog :=
  match getLogScan st.logs idx with
  | none => .error .logNotFound
  | some val => .ok ((decodeMsgPack val).getD log0)

/-- The historical seek-based GetLog (`src/unnamed/part_004` lines
100-115): `curs.Seek(uint64ToBytes(idx))` positions at the first key
greater than or equal to the encoded target (modelled by `dropWhile` of the
strictly smaller keys on the sorted bucket); nil key means `LogNotFound`;
otherwise `decodeMsgPack(v, log)` with its error discarded, as in
`GetLogLinear`. -/
def GetLogSeek (st : BoltStore) (idx : Nat) (log0 : RaftLog) :
    Except StoreErr RaftLog :=
  match st.logs.dropWhile (fun kv => lexLt kv.1 (uint64ToBytes idx)) with
  | [] => .error .logNotFound
  | kv :: _ => .ok ((decodeMsgPack kv.2).getD log0)

/-- The body of the StoreLogs batch loop (`bolt_store.go` lines 202-217),
acting on the transaction-local view of the "logs" bucket.  `enc` is the
record serializer (its failure is the serialization failure of the claim);
`putFail` injects an engine put failure.  Any failure aborts the loop with
`none`; otherwise each record is put under its own encoded-index key. -/
def storeLogsLoop (enc : RaftLog → Option (List Nat))
    (putFail : List Nat → List Nat → Bool) :
    Bucket → List RaftLog → Option Bucket
  | bucket, [] => some bucket
  | bucket, l :: rest =>
    match enc l with
    | none => none
    | some val =>
      if putFail (uint64ToBytes l.index) val then none
      else storeLogsLoop enc putFail (bucketPut bucket (uint64ToBytes l.index) val) rest

/-- StoreLogs (`bolt_store.go` lines 190-233): one write transaction for
the whole batch; on any failure inside the loop (or of the final commit,
injected by `commitFail`) the deferred rollback discards the
transaction-local bucket and the store is unchanged; only a successful
commit publishes the new bucket.  Returns the post-call store state paired
with whether the call succeeded.  The metrics samples emitted by the source
are an observability hook with no effect on the state and are not
modelled. -/
def StoreLogs (enc : RaftLog → Option (List Nat))
    (putFail : List Nat → List Nat → Bool) (commitFail : Bool)
    (st : BoltStore) (logs : List RaftLog) : BoltStore × Bool :=
  match storeLogsLoop enc putFail st.logs logs with
  | none => (st, false)
  | some b => if commitFail then (st, false) else ({ st with logs := b }, true)

/-- The deletion loop of DeleteRange (`bolt_store.go` lines 250-260),
acting on the cursor suffix that starts at the seek position: each entry
whose decoded key is at most `max` is deleted and the cursor advances; the
loop breaks at the first decoded key beyond `max`, leaving it and
everything after it in place. -/
def deleteRangeLoop (mx : Nat) : Bucket → Bucket
  | [] => []
  | kv :: rest => if bytesToUint64 kv.1 > mx then kv :: rest else deleteRangeLoop mx rest

/-- DeleteRange (`bolt_store.go` lines 236-263): one write transaction; the
cursor seeks to the first key not below `uint64ToBytes min` (on the sorted
bucket, `dropWhile` of the strictly smaller keys, which stay untouched) and
the loop deletes forward while the decoded key is at most `max`. -/
def DeleteRange (st : BoltStore) (mn mx : Nat) : BoltStore :=
  let minKey := uint64ToBytes mn
  { st with logs :=
      st.logs.takeWhile (fun kv => lexLt kv.1 minKey) ++
        deleteRangeLoop mx (st.logs.dropWhile (fun kv => lexLt kv.1 minKey)) }

/-- Set (`bolt_store.go` lines 266-283): one write transaction putting the
pair into the "conf" bucket. -/
def Set (st : BoltStore) (k v : List Nat) : BoltStore :=
  { st with conf := bucketPut st.conf k v }

/-- Get (`bolt_store.go` lines 286-304): a point lookup in the "conf"
bucket; `none` models `ErrKeyNotFound`.  The source returns
`append([]byte(nil), val...)`, a defensive copy of the engine's buffer; a
copy is byte-for-byte the same value, which is what the pure model
returns. -/
def Get (st : BoltStore) (k : List Nat) : Option (List Nat) :=
  bucketGet st.conf k

/-- A sequence of `Set` calls applied in order. -/
def applySets (st : BoltStore) (ops : List (List Nat × List Nat)) : BoltStore :=
  ops.foldl (fun s kv => Set s kv.1 kv.2) st

/-- A valid "logs" key: fixed-width 8 bytes, each a byte value.  Exactly
the byte strings produced by `uint64ToBytes`. -/
def validKey (k : List Nat) : Prop := k.length = 8 ∧ ∀ x ∈ k, x < 256

/-- The engine's bucket invariant: keys strictly ascending in
byte-lexicographic order. -/
def wfBucket (b : Bucket) : Prop :=
  List.Pairwise (fun x y : List Nat × List Nat => lexLt x.1 y.1 = true) b

/-- The invariant of the "logs" partition: a sorted bucket whose keys are
all 8-byte encoded indices (every key in "logs" is produced by
`uint64ToBytes`). -/
def wfLogs (b : Bucket) : Prop := wfBucket b ∧ ∀ kv ∈ b, validKey kv.1

/-- Well-formed store state: both partitions satisfy the engine's sorted
invariant, and the "logs" keys are encoded indices. -/
def wfStore (st : BoltStore) : Prop := wfLogs st.logs ∧ wfBucket st.conf

/-- A record whose numeric fields fit in `uint64`, as every `raft.Log`
value does in the source language. -/
def wfRecord (r : RaftLog) : Prop :=
  r.index < U64 ∧ r.term < U64 ∧ r.logType < U64

/-- The indices currently stored in the "logs" partition, in key order. -/
def storedIndices (st : BoltStore) : List Nat :=
  st.logs.map (fun kv => bytesToUint64 kv.1)

instance (k : List Nat) : Decidable (validKey k) :=
  inferInstanceAs (Decidable (k.length = 8 ∧ ∀ x ∈ k, x < 256))

instance (b : Bucket) : Decidable (wfBucket b) :=
  inferInstanceAs (Decidable (List.Pairwise _ b))

instance (b : Bucket) : Decidable (wfLogs b) :=
  inferInstanceAs (Decidable (wfBucket b ∧ ∀ kv ∈ b, validKey kv.1))

instance (st : BoltStore) : Decidable (wfStore st) :=
  inferInstanceAs (Decidable (wfLogs st.logs ∧ wfBucket st.conf))

instance (r : RaftLog) : Decidable (wfRecord r) :=
  inferInstanceAs (Decidable (r.index < U64 ∧ r.term < U64 ∧ r.logType < U64))

/-- The content of a file in the migration's file-system model: either an
opaque pre-existing file or a database holding a store state. -/
inductive FileData
  | raw (bytes : List Nat)
  | db (store : BoltStore)
deriving DecidableEq

/-- The world visible to `MigrateToV2`: the content of the already-open
source database, and the content at the destination path (`none` when no
file exists there). -/
structure MigState where
  src : BoltStore
  dest : Option FileData
deriving DecidableEq

/-- Failure injection for the fallible engine and file-system steps of
`MigrateToV2`, one flag per step in source order.  `destNewLeavesFile`
covers the fact that `New` (step `destNewFail`) opens the destination with
the engine, which creates the file, before initializing the buckets, so a
failure inside `New` can leave a file behind. -/
structure MigFailures where
  srcOpenFail : Bool
  srcBeginFail : Bool
  destNewFail : Bool
  destNewLeavesFile : Bool
  destBeginFail : Bool
  confCopyFail : Bool
  logsCopyFail : Bool
  commitFail : Bool
deriving DecidableEq

/-- The verbatim bucket copy of the migration (`v2/bolt_migrate.go` lines
63-72): iterate every (key, value) pair of the source bucket in
engine-native order and put it, bytes unmodified, into the fresh empty
destination bucket. -/
def copyBucket (src : Bucket) : Bucket :=
  src.foldl (fun acc kv => bucketPut acc kv.1 kv.2) []

/-- MigrateToV2 (`v2/bolt_migrate.go`): stat the destination and fail if a
file is already there; open the source read-only and begin a read
transaction; `New` the destination (creating the file and its two
buckets); begin a write transaction; copy the "conf" and then the "logs"
bucket verbatim; commit.  On a failure of the begin, of either copy, or of
the commit, the destination store is closed and the destination file
removed (`os.Remove`); a failure of `New` itself returns without removing
anything.  Returns the store handle (or `none` on error) and the resulting
world. -/
def MigrateToV2 (f : MigFailures) (w : MigState) : Option BoltStore × MigState :=
  match w.dest with
  | some _ => (none, w)
  | none =>
    if f.srcOpenFail then (none, w)
    else if f.srcBeginFail then (none, w)
    else if f.destNewFail then
      (none, if f.destNewLeavesFile
             then { w with dest := some (FileData.db emptyStore) }
             else w)
    else if f.destBeginFail then (none, { w with dest := none })
    else if f.confCopyFail then (none, { w with dest := none })
    else if f.logsCopyFail then (none, { w with dest := none })
    else if f.commitFail then (none, { w with dest := none })
    else
      let d : BoltStore := { logs := copyBucket w.src.logs,
                             conf := copyBucket w.src.conf }
      (some d, { w with dest := some (FileData.db d) })

/-! ## Key codec lemmas -/

theorem beBytes_length (n u : Nat) : (beBytes n u).length = n := by
  induction n generalizing u with
  | zero => rfl
  | succ n ih => simp [beBytes, ih]

theorem foldl_beBytes (n : Nat) : ∀ u acc, u < 256 ^ n →
    (beBytes n u).foldl (fun acc x => acc * 256 + x) acc = acc * 256 ^ n + u := by
  induction n with
  | zero => intro u acc hu; interval_cases u; simp [beBytes]
  | succ n ih =>
    intro u acc hu
    have hr : u % 256 ^ n < 256 ^ n := Nat.mod_lt _ (Nat.pos_pow_of_pos n (by norm_num))
    simp only [beBytes, List.foldl]
    rw [ih _ _ hr]
    have := Nat.div_add_mod u (256 ^ n)
    ring_nf
    ring_nf at this
    nlinarith [this]

theorem bytesToUint64_uint64ToBytes (u : Nat) (h : u < U64) :
    bytesToUint64 (uint64ToBytes u) = u := by
  have h8 : u < 256 ^ 8 := by norm_num [U64] at h ⊢; omega
  simpa [bytesToUint64, uint64ToBytes] using foldl_beBytes 8 u 0 h8

theorem lexLt_beBytes (n : Nat) : ∀ a b, a < 256 ^ n → b < 256 ^ n →
    (lexLt (beBytes n a) (beBytes n b) = true ↔ a < b) := by
  induction n with
  | zero =>
    intro a b ha hb
    interval_cases a
    interval_cases b
    simp [beBytes, lexLt]
  | succ n ih =>
    intro a b ha hb
    have hpos : 0 < 256 ^ n := Nat.pos_pow_of_pos n (by norm_num)
    have hra : a % 256 ^ n < 256 ^ n := Nat.mod_lt _ hpos
    have hrb : b % 256 ^ n < 256 ^ n := Nat.mod_lt _ hpos
    have ha' := Nat.div_add_mod a (256 ^ n)
    have hb' := Nat.div_add_mod b (256 ^ n)
    simp only [beBytes, lexLt, Bool.or_eq_true, decide_eq_true_eq, beq_iff_eq,
      Bool.and_eq_true, ih _ _ hra hrb]
    constructor
    · rintro (hlt | ⟨heq, hmod⟩)
      · have key : 256 ^ n * (a / 256 ^ n + 1) ≤ 256 ^ n * (b / 256 ^ n) :=
          Nat.mul_le_mul_left _ hlt
        have expand : 256 ^ n * (a / 256 ^ n + 1)
            = 256 ^ n * (a / 256 ^ n) + 256 ^ n := by ring
        omega
      · have key : 256 ^ n * (a / 256 ^ n) = 256 ^ n * (b / 256 ^ n) := by rw [heq]
        omega
    · intro hab
      rcases Nat.lt_trichotomy (a / 256 ^ n) (b / 256 ^ n) with h | h | h
      · exact Or.inl h
      · refine Or.inr ⟨h, ?_⟩
        have key : 256 ^ n * (a / 256 ^ n) = 256 ^ n * (b / 256 ^ n) := by rw [h]
        omega
      · exfalso
        have key : 256 ^ n * (b / 256 ^ n + 1) ≤ 256 ^ n * (a / 256 ^ n) :=
          Nat.mul_le_mul_left _ h
        have expand : 256 ^ n * (b / 256 ^ n + 1)
            = 256 ^ n * (b / 256 ^ n) + 256 ^ n := by ring
        omega

theorem lexLt_uint64ToBytes (a b : Nat) (ha : a < U64) (hb : b < U64) :
    lexLt (uint64ToBytes a) (uint64ToBytes b) = true ↔ a < b := by
  have ha8 : a < 256 ^ 8 := by norm_num [U64] at ha ⊢; omega
  have hb8 : b < 256 ^ 8 := by norm_num [U64] at hb ⊢; omega
  exact lexLt_beBytes 8 a b ha8 hb8

theorem lexLt_irrefl (x : List Nat) : lexLt x x = false := by
  induction x with
  | nil => rfl
  | cons a as ih => simp [lexLt, ih]

theorem lexLt_asymm : ∀ x y : List Nat, lexLt x y = true → lexLt y x = false := by
  intro x
  induction x with
  | nil => intro y _; cases y <;> rfl
  | cons a as ih =>
    intro y h
    cases y with
    | nil => cases h
    | cons b bs =>
      simp only [lexLt, Bool.or_eq_true, decide_eq_true_eq, beq_iff_eq,
        Bool.and_eq_true, Bool.or_eq_false_iff, decide_eq_false_iff_not,
        Bool.and_eq_false_iff, beq_eq_false_iff_ne, ne_eq] at h ⊢
      rcases h with h | ⟨rfl, h⟩
      · exact ⟨by omega, by left; omega⟩
      · exact ⟨by omega, by right; exact ih bs h⟩

theorem foldl_byte_acc (l : List Nat) : ∀ acc : Nat,
    l.foldl (fun a x => a * 256 + x) acc
      = acc * 256 ^ l.length + l.foldl (fun a x => a * 256 + x) 0 := by
  induction l with
  | nil => intro acc; simp
  | cons x l ih =>
    intro acc
    simp only [List.foldl, List.length_cons]
    rw [ih (acc * 256 + x), ih (0 * 256 + x)]
    ring

theorem bytesToUint64_cons (x : Nat) (l : List Nat) :
    bytesToUint64 (x :: l) = x * 256 ^ l.length + bytesToUint64 l := by
  simp only [bytesToUint64, List.foldl]
  rw [foldl_byte_acc l (0 * 256 + x)]
  ring

theorem bytesToUint64_lt (l : List Nat) (h : ∀ x ∈ l, x < 256) :
    bytesToUint64 l < 256 ^ l.length := by
  induction l with
  | nil => simp [bytesToUint64]
  | cons x l ih =>
    rw [bytesToUint64_cons]
    have hx : x < 256 := h x (List.mem_cons_self _ _)
    have hv : bytesToUint64 l < 256 ^ l.length :=
      ih fun y hy => h y (List.mem_cons_of_mem _ hy)
    have : (x + 1) * 256 ^ l.length ≤ 256 * 256 ^ l.length :=
      Nat.mul_le_mul_right _ (by omega)
    simp only [List.length_cons, pow_succ]
    nlinarith

theorem beBytes_bytesToUint64 (l : List Nat) (h : ∀ x ∈ l, x < 256) :
    beBytes l.length (bytesToUint64 l) = l := by
  induction l with
  | nil => rfl
  | cons x l ih =>
    have hpos : 0 < 256 ^ l.length := Nat.pos_pow_of_pos _ (by norm_num)
    have hv : bytesToUint64 l < 256 ^ l.length :=
      bytesToUint64_lt l fun y hy => h y (List.mem_cons_of_mem _ hy)
    rw [bytesToUint64_cons]
    simp only [List.length_cons, beBytes]
    rw [Nat.mul_comm x (256 ^ l.length), Nat.mul_add_div hpos, Nat.mul_add_mod,
      Nat.div_eq_of_lt hv, Nat.mod_eq_of_lt hv, Nat.add_zero]
    rw [ih fun y hy => h y (List.mem_cons_of_mem _ hy)]

theorem bytesToUint64_lt_U64 (k : List Nat) (h : validKey k) :
    bytesToUint64 k < U64 := by
  have := bytesToUint64_lt k h.2
  rw [h.1] at this
  norm_num [U64] at this ⊢
  omega

theorem uint64ToBytes_bytesToUint64 (k : List Nat) (h : validKey k) :
    uint64ToBytes (bytesToUint64 k) = k := by
  have := beBytes_bytesToUint64 k h.2
  rw [h.1] at this
  exact this

theorem beBytes_lt (n : Nat) : ∀ u, u < 256 ^ n → ∀ x ∈ beBytes n u, x < 256 := by
  induction n with
  | zero => intro u _ x hx; simp [beBytes] at hx
  | succ n ih =>
    intro u hu x hx
    have hpos : 0 < 256 ^ n := Nat.pos_pow_of_pos n (by norm_num)
    simp only [beBytes, List.mem_cons] at hx
    rcases hx with rfl | hx
    · have : u < 256 ^ n * 256 := by
        have : (256 : Nat) ^ (n + 1) = 256 ^ n * 256 := by ring
        omega
      exact Nat.div_lt_of_lt_mul this
    · exact ih (u % 256 ^ n) (Nat.mod_lt _ hpos) x hx

theorem validKey_uint64ToBytes (u : Nat) (h : u < U64) :
    validKey (uint64ToBytes u) := by
  have h8 : u < 256 ^ 8 := by norm_num [U64] at h ⊢; omega
  exact ⟨beBytes_length 8 u, beBytes_lt 8 u h8⟩

theorem uint64ToBytes_inj (a b : Nat) (ha : a < U64) (hb : b < U64)
    (h : uint64ToBytes a = uint64ToBytes b) : a = b := by
  have := congrArg bytesToUint64 h
  rwa [bytesToUint64_uint64ToBytes a ha, bytesToUint64_uint64ToBytes b hb] at this

/-! ## Bucket lemmas -/

theorem bucketGet_eq_none_iff (b : Bucket) (k : List Nat) :
    bucketGet b k = none ↔ ∀ kv ∈ b, kv.1 ≠ k := by
  induction b with
  | nil => simp [bucketGet]
  | cons kv0 rest ih =>
    by_cases h : kv0.1 = k
    · simp [bucketGet, h]
    · simp [bucketGet, h, ih]

theorem bucketGet_mem (b : Bucket) (k v : List Nat)
    (h : bucketGet b k = some v) : (k, v) ∈ b := by
  induction b with
  | nil => cases h
  | cons kv0 rest ih =>
    by_cases h0 : kv0.1 = k
    · simp only [bucketGet, h0, if_pos] at h
      have hv : kv0.2 = v := by injection h
      have hkv : kv0 = (k, v) := by
        cases kv0
        simp only at h0 hv
        rw [h0, hv]
      rw [← hkv]
      exact List.mem_cons_self _ _
    · simp only [bucketGet, h0, if_neg, not_false_iff] at h
      exact List.mem_cons_of_mem _ (ih h)

theorem bucketGet_of_mem (b : Bucket) (k v : List Nat)
    (hwf : wfBucket b) (hmem : (k, v) ∈ b) : bucketGet b k = some v := by
  induction b with
  | nil => cases hmem
  | cons kv0 rest ih =>
    rw [wfBucket, List.pairwise_cons] at hwf
    rcases List.mem_cons.mp hmem with rfl | hmem
    · simp [bucketGet]
    · by_cases h0 : kv0.1 = k
      · exfalso
        have := hwf.1 (k, v) hmem
        rw [h0] at this
        simp [lexLt_irrefl] at this
      · simp only [bucketGet, h0, if_neg, not_false_iff]
        exact ih hwf.2 hmem

theorem bucketGet_bucketPut_self (b : Bucket) (k v : List Nat) :
    bucketGet (bucketPut b k v) k = some v := by
  induction b with
  | nil => simp [bucketPut, bucketGet]
  | cons kv0 rest ih =>
    simp only [bucketPut]
    by_cases h1 : lexLt k kv0.1 = true
    · simp [h1, bucketGet]
    · simp only [h1, if_neg, Bool.not_eq_true, if_false]
      by_cases h2 : k = kv0.1
      · simp [h2, bucketGet]
      · simp only [h2, if_neg, not_false_iff, if_false]
        have h2' : kv0.1 ≠ k := fun h => h2 h.symm
        simp [bucketGet, h2', ih]

theorem bucketGet_bucketPut_ne (b : Bucket) (k v k' : List Nat) (hne : k' ≠ k) :
    bucketGet (bucketPut b k v) k' = bucketGet b k' := by
  induction b with
  | nil =>
    have : k ≠ k' := fun h => hne h.symm
    simp [bucketPut, bucketGet, this]
  | cons kv0 rest ih =>
    simp only [bucketPut]
    by_cases h1 : lexLt k kv0.1 = true
    · have : k ≠ k' := fun h => hne h.symm
      simp [h1, bucketGet, this]
    · simp only [h1, if_neg, Bool.not_eq_true, if_false]
      by_cases h2 : k = kv0.1
      · have hk : k ≠ k' := fun h => hne h.symm
        subst h2
        simp [bucketGet, hk]
      · simp only [h2, if_neg, not_false_iff, if_false]
        by_cases h3 : kv0.1 = k'
        · simp [bucketGet, h3]
        · simp [bucketGet, h3, ih]

theorem bucketPut_append_of_lt (b : Bucket) (k v : List Nat)
    (h : ∀ kv ∈ b, lexLt kv.1 k = true) : bucketPut b k v = b ++ [(k, v)] := by
  induction b with
  | nil => rfl
  | cons kv0 rest ih =>
    have h0 : lexLt kv0.1 k = true := h kv0 (List.mem_cons_self _ _)
    have h1 : lexLt k kv0.1 = false := lexLt_asymm _ _ h0
    have h2 : k ≠ kv0.1 := by
      intro he
      rw [he] at h0
      rw [lexLt_irrefl] at h0
      cases h0
    simp only [bucketPut, h1, h2, if_neg, not_false_iff, Bool.false_eq_true, if_false]
    rw [ih fun kv hkv => h kv (List.mem_cons_of_mem _ hkv)]
    rfl

theorem foldl_bucketPut_append (src : Bucket) : ∀ acc : Bucket,
    (∀ kv2 ∈ src, ∀ kv ∈ acc, lexLt kv.1 kv2.1 = true) → wfBucket src →
    src.foldl (fun a kv => bucketPut a kv.1 kv.2) acc = acc ++ src := by
  induction src with
  | nil => intro acc _ _; simp
  | cons s rest ih =>
    intro acc hlt hwf
    rw [wfBucket, List.pairwise_cons] at hwf
    simp only [List.foldl]
    rw [bucketPut_append_of_lt acc s.1 s.2
      (hlt s (List.mem_cons_self _ _))]
    rw [ih (acc ++ [(s.1, s.2)]) ?later hwf.2]
    · simp
    · intro kv2 h2 kv hk
      rcases List.mem_append.mp hk with hk | hk
      · exact hlt kv2 (List.mem_cons_of_mem _ h2) kv hk
      · simp only [List.mem_singleton] at hk
        subst hk
        exact hwf.1 kv2 h2

theorem copyBucket_eq_self (src : Bucket) (hwf : wfBucket src) :
    copyBucket src = src := by
  rw [copyBucket, foldl_bucketPut_append src [] (by simp) hwf]
  rfl

/-! ## Well-formedness transfer lemmas -/

theorem wfLogs_key (b : Bucket) (hwf : wfLogs b) {kv : List Nat × List Nat}
    (hmem : kv ∈ b) :
    bytesToUint64 kv.1 < U64 ∧ kv.1 = uint64ToBytes (bytesToUint64 kv.1) := by
  have hv := hwf.2 kv hmem
  exact ⟨bytesToUint64_lt_U64 _ hv, (uint64ToBytes_bytesToUint64 _ hv).symm⟩

theorem wfLogs_pairwise_idx (b : Bucket) (hwf : wfLogs b) :
    b.Pairwise (fun x y => bytesToUint64 x.1 < bytesToUint64 y.1) := by
  refine List.Pairwise.imp_of_mem ?_ hwf.1
  intro x y hx hy hxy
  have hxk := wfLogs_key b hwf hx
  have hyk := wfLogs_key b hwf hy
  rw [hxk.2, hyk.2] at hxy
  exact (lexLt_uint64ToBytes _ _ hxk.1 hyk.1).mp hxy

/-! ## Record codec lemmas -/

theorem decodeMsgPack_encodeMsgPack (r : RaftLog) (h : wfRecord r) :
    decodeMsgPack (encodeMsgPack r) = some r := by
  obtain ⟨hi, ht, hy⟩ := h
  have l8 : ∀ u : Nat, (uint64ToBytes u).length = 8 := fun u => beBytes_length 8 u
  have hlen : 24 ≤ (encodeMsgPack r).length := by
    simp only [encodeMsgPack, List.length_append, l8]
    omega
  rw [decodeMsgPack, if_pos hlen]
  have htake : ∀ (l rest : List Nat), l.length = 8 → (l ++ rest).take 8 = l := by
    intro l rest hl
    rw [List.take_append_of_le_length (le_of_eq hl.symm), List.take_of_length_le (le_of_eq hl)]
  have hdrop : ∀ (l rest : List Nat), l.length = 8 → (l ++ rest).drop 8 = rest := by
    intro l rest hl
    rw [List.drop_append_of_le_length (le_of_eq hl.symm), List.drop_of_length_le (le_of_eq hl),
      List.nil_append]
  simp only [encodeMsgPack, List.append_assoc]
  have hdrop16 : ((uint64ToBytes r.index ++ (uint64ToBytes r.term ++
      (uint64ToBytes r.logType ++ r.data)))).drop 16 = uint64ToBytes r.logType ++ r.data := by
    rw [show (16 : Nat) = 8 + 8 by rfl, Nat.add_comm 8 8, ← List.drop_drop,
      hdrop _ _ (l8 r.index), hdrop _ _ (l8 r.term)]
  have hdrop24 : ((uint64ToBytes r.index ++ (uint64ToBytes r.term ++
      (uint64ToBytes r.logType ++ r.data)))).drop 24 = r.data := by
    rw [show (24 : Nat) = 16 + 8 by rfl, ← List.drop_drop, hdrop16,
      hdrop _ _ (l8 r.logType)]
  rw [htake _ _ (l8 r.index), hdrop _ _ (l8 r.index), htake _ _ (l8 r.term),
    hdrop16, hdrop24, htake _ _ (l8 r.logType)]
  rw [bytesToUint64_uint64ToBytes _ hi, bytesToUint64_uint64ToBytes _ ht,
    bytesToUint64_uint64ToBytes _ hy]

theorem GetLog_of_get_none (st : BoltStore) (idx : Nat)
    (hg : bucketGet st.logs (uint64ToBytes idx) = none) :
    GetLog st idx = .error .logNotFound := by
  simp only [GetLog, hg]

theorem GetLog_of_get_decode (st : BoltStore) (idx : Nat) (v : List Nat) (r : RaftLog)
    (hg : bucketGet st.logs (uint64ToBytes idx) = some v)
    (hd : decodeMsgPack v = some r) : GetLog st idx = .ok r := by
  simp only [GetLog, hg, hd]

theorem GetLog_of_get_corrupt (st : BoltStore) (idx : Nat) (v : List Nat)
    (hg : bucketGet st.logs (uint64ToBytes idx) = some v)
    (hd : decodeMsgPack v = none) : GetLog st idx = .error .corruptRecord := by
  simp only [GetLog, hg, hd]

/-! ## Claim C2: key encoding is fixed-width, order-preserving, and
round-trips -/

/-- C2: the log-index key encoding is a fixed-width 8-byte big-endian
encoding that is order-preserving: for indices `a < b` (both below 2 ^ 64),
`uint64ToBytes a` is strictly below `uint64ToBytes b` in byte-lexicographic
order, and decoding inverts encoding. -/
theorem claimC2_key_codec (a b : Nat) (ha : a < U64) (hb : b < U64) :
    (uint64ToBytes a).length = 8 ∧
    (a < b → lexLt (uint64ToBytes a) (uint64ToBytes b) = true) ∧
    bytesToUint64 (uint64ToBytes a) = a :=
  ⟨beBytes_length 8 a, fun h => (lexLt_uint64ToBytes a b ha hb).mpr h,
   bytesToUint64_uint64ToBytes a ha⟩

/-- Witness for C2 at the concrete indices 3 and 7. -/
theorem claimC2_key_codec_witness :
    (3 : Nat) < U64 ∧ (7 : Nat) < U64 ∧
      ((uint64ToBytes 3).length = 8 ∧
       ((3 : Nat) < 7 → lexLt (uint64ToBytes 3) (uint64ToBytes 7) = true) ∧
       bytesToUint64 (uint64ToBytes 3) = 3) :=
  ⟨by norm_num [U64], by norm_num [U64],
   claimC2_key_codec 3 7 (by norm_num [U64]) (by norm_num [U64])⟩

/-! ## Claim C9: conf-store round trip -/

theorem applySets_get_none (ops : List (List Nat × List Nat)) :
    ∀ (st : BoltStore) (k : List Nat), (∀ op ∈ ops, op.1 ≠ k) →
    Get st k = none → Get (applySets st ops) k = none := by
  induction ops with
  | nil => intro st k _ h0; exact h0
  | cons op rest ih =>
    intro st k hne h0
    simp only [applySets, List.foldl] at *
    refine ih (Set st op.1 op.2) k (fun q hq => hne q (List.mem_cons_of_mem _ hq)) ?_
    rw [Get, Set]
    rw [bucketGet_bucketPut_ne st.conf op.1 op.2 k
      (fun he => hne op (List.mem_cons_self _ _) he.symm)]
    exact h0

/-- C9: on the conf partition, a key never passed to `Set` (through any
sequence of `Set` calls on a fresh store) reads back as `KeyNotFound`, and
a `Set` followed by a `Get` of the same key returns exactly the bytes
written. -/
theorem claimC9_conf_round_trip :
    (∀ (ops : List (List Nat × List Nat)) (k : List Nat),
      (∀ op ∈ ops, op.1 ≠ k) → Get (applySets emptyStore ops) k = none) ∧
    (∀ (st : BoltStore) (k v : List Nat), Get (Set st k v) k = some v) := by
  constructor
  · intro ops k hne
    exact applySets_get_none ops emptyStore k hne rfl
  · intro st k v
    rw [Get, Set]
    exact bucketGet_bucketPut_self st.conf k v

/-- Witness for C9: a key not among the written ones reads back absent, and
a written key reads back its value. -/
theorem claimC9_conf_round_trip_witness :
    (∀ op ∈ [([1], [2]), ([3], [4])], op.1 ≠ [5]) ∧
    Get (applySets emptyStore [([1], [2]), ([3], [4])]) [5] = none ∧
    Get (Set emptyStore [6] [7, 8]) [6] = some [7, 8] :=
  ⟨by decide,
   claimC9_conf_round_trip.1 [([1], [2]), ([3], [4])] [5] (by decide),
   claimC9_conf_round_trip.2 emptyStore [6] [7, 8]⟩

/-! ## Claim C5: GetLog point lookup -/

/-- C5: `GetLog` fails with `LogNotFound` exactly when no entry is stored
under the requested index; any successful result is decoded from the value
stored under exactly that index (never a different one); and a record
stored at the requested index is returned intact. -/
theorem claimC5_getLog_exact (st : BoltStore) (idx : Nat)
    (hwf : wfStore st) (hidx : idx < U64) :
    (GetLog st idx = .error .logNotFound ↔ ∀ v, (uint64ToBytes idx, v) ∉ st.logs) ∧
    (∀ r, GetLog st idx = .ok r →
      ∃ v, (uint64ToBytes idx, v) ∈ st.logs ∧ decodeMsgPack v = some r) ∧
    (∀ r, wfRecord r → r.index = idx →
      (uint64ToBytes idx, encodeMsgPack r) ∈ st.logs → GetLog st idx = .ok r) := by
  refine ⟨?_, ?_, ?_⟩
  · constructor
    · intro h v hmem
      have hb := bucketGet_of_mem st.logs _ _ hwf.1.1 hmem
      cases hdec : decodeMsgPack v with
      | none => rw [GetLog_of_get_corrupt st idx v hb hdec] at h; cases h
      | some r => rw [GetLog_of_get_decode st idx v r hb hdec] at h; cases h
    · intro h
      have hn : bucketGet st.logs (uint64ToBytes idx) = none := by
        rw [bucketGet_eq_none_iff]
        intro kv hkv he
        have : (uint64ToBytes idx, kv.2) ∈ st.logs := by
          have hkv2 : kv = (uint64ToBytes idx, kv.2) := by
            cases kv
            simp only at he
            rw [he]
          rw [← hkv2]
          exact hkv
        exact h kv.2 this
      exact GetLog_of_get_none st idx hn
  · intro r h
    cases hg : bucketGet st.logs (uint64ToBytes idx) with
    | none => rw [GetLog_of_get_none st idx hg] at h; cases h
    | some v =>
      cases hdec : decodeMsgPack v with
      | none => rw [GetLog_of_get_corrupt st idx v hg hdec] at h; cases h
      | some r2 =>
        rw [GetLog_of_get_decode st idx v r2 hg hdec] at h
        injection h with h
        subst h
        exact ⟨v, bucketGet_mem _ _ _ hg, hdec⟩
  · intro r hr hri hmem
    have hb := bucketGet_of_mem st.logs _ _ hwf.1.1 hmem
    exact GetLog_of_get_decode st idx _ r hb (decodeMsgPack_encodeMsgPack r hr)

/-- Witness for C5: a store holding one record at index 1 returns it under
GetLog 1. -/
theorem claimC5_getLog_exact_witness :
    wfStore ⟨[(uint64ToBytes 1, encodeMsgPack ⟨1, 0, 0, [10]⟩)], []⟩ ∧
    (1 : Nat) < U64 ∧
    GetLog ⟨[(uint64ToBytes 1, encodeMsgPack ⟨1, 0, 0, [10]⟩)], []⟩ 1
      = .ok ⟨1, 0, 0, [10]⟩ := by
  refine ⟨by decide, by decide, ?_⟩
  exact (claimC5_getLog_exact ⟨[(uint64ToBytes 1, encodeMsgPack ⟨1, 0, 0, [10]⟩)], []⟩ 1
    (by decide) (by decide)).2.2 ⟨1, 0, 0, [10]⟩ (by decide) rfl
    (List.mem_singleton.mpr rfl)

/-! ## Claim C4: FirstIndex and LastIndex -/

theorem pairwise_getLast_spec {α : Type} {R : α → α → Prop} :
    ∀ (l : List α), l.Pairwise R → ∀ z, l.getLast? = some z →
      z ∈ l ∧ ∀ x ∈ l, x = z ∨ R x z := by
  intro l
  induction l with
  | nil => intro _ z h; cases h
  | cons a l ih =>
    intro hp z hz
    cases l with
    | nil =>
      simp only [List.getLast?_singleton, Option.some.injEq] at hz
      subst hz
      exact ⟨List.mem_singleton.mpr rfl, fun x hx => Or.inl (List.mem_singleton.mp hx)⟩
    | cons b l2 =>
      rw [List.getLast?_cons_cons] at hz
      have hp2 := List.pairwise_cons.mp hp
      obtain ⟨hzmem, hall⟩ := ih hp2.2 z hz
      refine ⟨List.mem_cons_of_mem _ hzmem, ?_⟩
      intro x hx
      rcases List.mem_cons.mp hx with rfl | hx
      · exact Or.inr (hp2.1 z hzmem)
      · exact hall x hx

/-- C4: on every well-formed store state (in particular after any sequence
of storeLogs and deleteRange operations, which preserve well-formedness),
FirstIndex is the minimum stored index and LastIndex the maximum, and both
are 0 on an empty logs partition. -/
theorem claimC4_first_last_index (st : BoltStore) (hwf : wfStore st) :
    (st.logs = [] → FirstIndex st = 0 ∧ LastIndex st = 0) ∧
    (st.logs ≠ [] →
      FirstIndex st ∈ storedIndices st ∧ LastIndex st ∈ storedIndices st ∧
      ∀ i ∈ storedIndices st, FirstIndex st ≤ i ∧ i ≤ LastIndex st) := by
  constructor
  · intro h
    rw [FirstIndex, LastIndex, h]
    exact ⟨rfl, rfl⟩
  · intro hne
    have hpw := wfLogs_pairwise_idx st.logs hwf.1
    cases hl : st.logs with
    | nil => exact absurd hl hne
    | cons kv0 rest =>
      rw [hl] at hpw
      have hfirst : FirstIndex st = bytesToUint64 kv0.1 := by rw [FirstIndex, hl]
      have hlast : ∃ z, st.logs.getLast? = some z ∧ LastIndex st = bytesToUint64 z.1 := by
        rw [hl]
        cases hgl : (kv0 :: rest).getLast? with
        | none => simp at hgl
        | some z =>
          refine ⟨z, rfl, ?_⟩
          rw [LastIndex, hl, hgl]
      obtain ⟨z, hz, hlz⟩ := hlast
      rw [hl] at hz
      have hzspec := pairwise_getLast_spec (kv0 :: rest) hpw z hz
      refine ⟨?_, ?_, ?_⟩
      · rw [hfirst, storedIndices, hl]
        exact List.mem_map_of_mem _ (List.mem_cons_self _ _)
      · rw [hlz, storedIndices, hl]
        exact List.mem_map_of_mem _ hzspec.1
      · intro i hi
        rw [storedIndices, hl] at hi
        obtain ⟨kv, hkv, rfl⟩ := List.mem_map.mp hi
        constructor
        · rw [hfirst]
          rcases List.mem_cons.mp hkv with rfl | hkv2
          · exact le_refl _
          · exact le_of_lt ((List.pairwise_cons.mp hpw).1 kv hkv2)
        · rw [hlz]
          rcases hzspec.2 kv hkv with rfl | hlt
          · exact le_refl _
          · exact le_of_lt hlt

/-- Witness for C4 on a concrete two-entry store. -/
theorem claimC4_first_last_index_witness :
    wfStore ⟨[(uint64ToBytes 2, [0]), (uint64ToBytes 5, [1])], []⟩ ∧
    ([((uint64ToBytes 2 : List Nat), ([0] : List Nat)), (uint64ToBytes 5, [1])] ≠ []) ∧
    FirstIndex ⟨[(uint64ToBytes 2, [0]), (uint64ToBytes 5, [1])], []⟩
      ∈ storedIndices ⟨[(uint64ToBytes 2, [0]), (uint64ToBytes 5, [1])], []⟩ := by
  refine ⟨by decide, by decide, ?_⟩
  exact ((claimC4_first_last_index ⟨[(uint64ToBytes 2, [0]), (uint64ToBytes 5, [1])], []⟩
    (by decide)).2 (by decide)).1

/-! ## Claim C1: DeleteRange -/

theorem deleteRangeLoop_filter (mn mx : Nat) :
    ∀ l : Bucket, l.Pairwise (fun x y => bytesToUint64 x.1 < bytesToUint64 y.1) →
      (∀ kv ∈ l, mn ≤ bytesToUint64 kv.1) →
      deleteRangeLoop mx l
        = l.filter (fun kv =>
            decide ¬(mn ≤ bytesToUint64 kv.1 ∧ bytesToUint64 kv.1 ≤ mx)) := by
  intro l
  induction l with
  | nil => intro _ _; rfl
  | cons kv l ih =>
    intro hpw hge
    have hpw2 := List.pairwise_cons.mp hpw
    by_cases h : bytesToUint64 kv.1 > mx
    · have hhead : (decide ¬(mn ≤ bytesToUint64 kv.1 ∧ bytesToUint64 kv.1 ≤ mx)) = true := by
        simp only [decide_eq_true_eq]
        omega
      have htail : l.filter (fun kv =>
          decide ¬(mn ≤ bytesToUint64 kv.1 ∧ bytesToUint64 kv.1 ≤ mx)) = l := by
        rw [List.filter_eq_self]
        intro x hx
        have := hpw2.1 x hx
        simp only [decide_eq_true_eq]
        omega
      simp only [deleteRangeLoop, h, if_pos, List.filter_cons, hhead, htail]
    · have hhead : (decide ¬(mn ≤ bytesToUint64 kv.1 ∧ bytesToUint64 kv.1 ≤ mx)) = false := by
        simp only [decide_eq_false_iff_not, not_not]
        exact ⟨hge kv (List.mem_cons_self _ _), by omega⟩
      simp only [deleteRangeLoop, h, if_neg, not_false_iff, List.filter_cons, hhead,
        if_false, Bool.false_eq_true]
      exact ih hpw2.2 fun x hx => hge x (List.mem_cons_of_mem _ hx)

theorem dropWhile_all_ge (mn : Nat) :
    ∀ l : Bucket, l.Pairwise (fun x y => bytesToUint64 x.1 < bytesToUint64 y.1) →
      (∀ kv ∈ l, (lexLt kv.1 (uint64ToBytes mn) = true ↔ bytesToUint64 kv.1 < mn)) →
      ∀ kv ∈ l.dropWhile (fun kv => lexLt kv.1 (uint64ToBytes mn)),
        mn ≤ bytesToUint64 kv.1 := by
  intro l
  induction l with
  | nil => intro _ _ kv hkv; simp [List.dropWhile] at hkv
  | cons a l ih =>
    intro hpw hiff kv hkv
    have hpw2 := List.pairwise_cons.mp hpw
    rw [List.dropWhile_cons] at hkv
    by_cases hpa : lexLt a.1 (uint64ToBytes mn) = true
    · rw [if_pos hpa] at hkv
      exact ih hpw2.2 (fun x hx => hiff x (List.mem_cons_of_mem _ hx)) kv hkv
    · rw [if_neg hpa] at hkv
      have hamn : mn ≤ bytesToUint64 a.1 := by
        have hia := hiff a (List.mem_cons_self _ _)
        have hnlt : ¬ bytesToUint64 a.1 < mn := fun hlt => hpa (hia.mpr hlt)
        omega
      rcases List.mem_cons.mp hkv with rfl | hkv2
      · exact hamn
      · exact le_of_lt (lt_of_le_of_lt hamn (hpw2.1 kv hkv2))

/-- C1: DeleteRange removes exactly the stored entries whose decoded index
lies in the inclusive interval [min, max] and leaves every other logs entry
and the whole conf partition unchanged, for every well-formed store state
and every pair of uint64 bounds (including empty intervals and intervals
matching nothing). -/
theorem claimC1_deleteRange_exact (st : BoltStore) (mn mx : Nat) (hwf : wfStore st)
    (hmn : mn < U64) :
    (DeleteRange st mn mx).logs
      = st.logs.filter (fun kv =>
          decide ¬(mn ≤ bytesToUint64 kv.1 ∧ bytesToUint64 kv.1 ≤ mx)) ∧
    (DeleteRange st mn mx).conf = st.conf := by
  refine ⟨?_, rfl⟩
  have hiff : ∀ kv ∈ st.logs,
      (lexLt kv.1 (uint64ToBytes mn) = true ↔ bytesToUint64 kv.1 < mn) := by
    intro kv hkv
    have hk := wfLogs_key st.logs hwf.1 hkv
    constructor
    · intro h
      rw [hk.2] at h
      exact (lexLt_uint64ToBytes _ _ hk.1 hmn).mp h
    · intro h
      rw [hk.2]
      exact (lexLt_uint64ToBytes _ _ hk.1 hmn).mpr h
  have hpw := wfLogs_pairwise_idx st.logs hwf.1
  have hDR : (DeleteRange st mn mx).logs
      = st.logs.takeWhile (fun kv => lexLt kv.1 (uint64ToBytes mn)) ++
          deleteRangeLoop mx
            (st.logs.dropWhile (fun kv => lexLt kv.1 (uint64ToBytes mn))) := rfl
  rw [hDR]
  conv_rhs =>
    rw [← List.takeWhile_append_dropWhile
      (fun kv => lexLt kv.1 (uint64ToBytes mn)) st.logs]
  rw [List.filter_append]
  have htw : (st.logs.takeWhile (fun kv => lexLt kv.1 (uint64ToBytes mn))).filter
      (fun kv => decide ¬(mn ≤ bytesToUint64 kv.1 ∧ bytesToUint64 kv.1 ≤ mx))
      = st.logs.takeWhile (fun kv => lexLt kv.1 (uint64ToBytes mn)) := by
    rw [List.filter_eq_self]
    intro kv hkv
    have hmem : kv ∈ st.logs :=
      (List.takeWhile_sublist (fun kv => lexLt kv.1 (uint64ToBytes mn))).subset hkv
    have hptrue := List.mem_takeWhile_imp hkv
    have hlt : bytesToUint64 kv.1 < mn := (hiff kv hmem).mp hptrue
    simp only [decide_eq_true_eq]
    omega
  have hdw : deleteRangeLoop mx
      (st.logs.dropWhile (fun kv => lexLt kv.1 (uint64ToBytes mn)))
      = (st.logs.dropWhile (fun kv => lexLt kv.1 (uint64ToBytes mn))).filter
          (fun kv => decide ¬(mn ≤ bytesToUint64 kv.1 ∧ bytesToUint64 kv.1 ≤ mx)) := by
    refine deleteRangeLoop_filter mn mx _ ?_ ?_
    · have hsub : (st.logs.dropWhile
          (fun kv => lexLt kv.1 (uint64ToBytes mn))).Sublist st.logs :=
        List.dropWhile_sublist _
      exact hpw.sublist hsub
    · exact dropWhile_all_ge mn st.logs hpw hiff
  rw [htw, hdw]

/-- Witness for C1: deleting [2, 2] from a store holding indices 1, 2, 3
keeps exactly 1 and 3 and the conf partition. -/
theorem claimC1_deleteRange_exact_witness :
    wfStore ⟨[(uint64ToBytes 1, [10]), (uint64ToBytes 2, [20]),
              (uint64ToBytes 3, [30])], [([9], [9])]⟩ ∧
    (2 : Nat) < U64 ∧
    (DeleteRange ⟨[(uint64ToBytes 1, [10]), (uint64ToBytes 2, [20]),
              (uint64ToBytes 3, [30])], [([9], [9])]⟩ 2 2).logs
      = [(uint64ToBytes 1, [10]), (uint64ToBytes 2, [20]),
         (uint64ToBytes 3, [30])].filter (fun kv =>
          decide ¬(2 ≤ bytesToUint64 kv.1 ∧ bytesToUint64 kv.1 ≤ 2)) := by
  refine ⟨by decide, by decide, ?_⟩
  exact (claimC1_deleteRange_exact ⟨[(uint64ToBytes 1, [10]), (uint64ToBytes 2, [20]),
    (uint64ToBytes 3, [30])], [([9], [9])]⟩ 2 2 (by decide) (by decide)).1

/-! ## Claim C3: StoreLogs batch atomicity -/

theorem storeLogsLoop_append (enc : RaftLog → Option (List Nat))
    (pf : List Nat → List Nat → Bool) (xs : List RaftLog) :
    ∀ (bucket : Bucket) (ys : List RaftLog),
    storeLogsLoop enc pf bucket (xs ++ ys)
      = (storeLogsLoop enc pf bucket xs).bind
          (fun b => storeLogsLoop enc pf b ys) := by
  induction xs with
  | nil => intro bucket ys; rfl
  | cons x xs ih =>
    intro bucket ys
    simp only [List.cons_append, storeLogsLoop]
    cases henc : enc x with
    | none => rfl
    | some val =>
      by_cases hpf : pf (uint64ToBytes x.index) val = true
      · simp [hpf]
      · simp only [Bool.not_eq_true] at hpf
        simp only [hpf, Bool.false_eq_true, if_false]
        exact ih _ ys

theorem storeLogsLoop_some (enc : RaftLog → Option (List Nat))
    (pf : List Nat → List Nat → Bool) :
    ∀ (logs : List RaftLog) (bucket : Bucket),
    (∀ l ∈ logs, ∃ v, enc l = some v ∧ pf (uint64ToBytes l.index) v = false) →
    ∃ b, storeLogsLoop enc pf bucket logs = some b := by
  intro logs
  induction logs with
  | nil => intro bucket _; exact ⟨bucket, rfl⟩
  | cons x xs ih =>
    intro bucket h
    obtain ⟨v, hv, hpf⟩ := h x (List.mem_cons_self _ _)
    obtain ⟨b, hb⟩ := ih (bucketPut bucket (uint64ToBytes x.index) v)
      (fun l hl => h l (List.mem_cons_of_mem _ hl))
    exact ⟨b, by simp only [storeLogsLoop, hv, hpf, Bool.false_eq_true, if_false, hb]⟩

theorem storeLogsLoop_none (enc : RaftLog → Option (List Nat))
    (pf : List Nat → List Nat → Bool) :
    ∀ (logs : List RaftLog) (bucket : Bucket),
    (∃ l ∈ logs, enc l = none ∨
      ∃ v, enc l = some v ∧ pf (uint64ToBytes l.index) v = true) →
    storeLogsLoop enc pf bucket logs = none := by
  intro logs
  induction logs with
  | nil => intro bucket h; obtain ⟨l, hl, _⟩ := h; cases hl
  | cons x xs ih =>
    intro bucket h
    obtain ⟨l, hl, hfail⟩ := h
    rcases List.mem_cons.mp hl with rfl | hl2
    · rcases hfail with henc | ⟨v, hv, hpf⟩
      · simp only [storeLogsLoop, henc]
      · simp only [storeLogsLoop, hv, hpf, if_true]
    · cases henc : enc x with
      | none => simp only [storeLogsLoop, henc]
      | some val =>
        by_cases hpf : pf (uint64ToBytes x.index) val = true
        · simp only [storeLogsLoop, henc, hpf, if_true]
        · simp only [Bool.not_eq_true] at hpf
          simp only [storeLogsLoop, henc, hpf, Bool.false_eq_true, if_false]
          exact ih _ ⟨l, hl2, hfail⟩

theorem storeLogsLoop_get_stable (enc : RaftLog → Option (List Nat))
    (pf : List Nat → List Nat → Bool) (key : List Nat) :
    ∀ (logs : List RaftLog) (bucket b : Bucket),
    (∀ l ∈ logs, uint64ToBytes l.index ≠ key) →
    storeLogsLoop enc pf bucket logs = some b →
    bucketGet b key = bucketGet bucket key := by
  intro logs
  induction logs with
  | nil => intro bucket b _ h; cases h; rfl
  | cons x xs ih =>
    intro bucket b hne h
    cases henc : enc x with
    | none => simp only [storeLogsLoop, henc] at h; cases h
    | some val =>
      simp only [storeLogsLoop, henc] at h
      by_cases hpf : pf (uint64ToBytes x.index) val = true
      · rw [if_pos hpf] at h; cases h
      · simp only [Bool.not_eq_true] at hpf
        rw [hpf] at h
        simp only [Bool.false_eq_true, if_false] at h
        rw [ih _ b (fun l hl => hne l (List.mem_cons_of_mem _ hl)) h]
        exact bucketGet_bucketPut_ne bucket _ val key
          (fun he => hne x (List.mem_cons_self _ _) he.symm)

/-- C3: StoreLogs is all-or-nothing.  If serialization or the engine put of
any record in the batch fails, or the commit fails, the call reports
failure and the resulting store is exactly the pre-call store; if every
step succeeds, the call reports success, leaves conf alone, and every
record of the batch (at its last occurrence, for duplicate indices) is
retrievable under its own encoded-index key. -/
theorem claimC3_storeLogs_atomic (enc : RaftLog → Option (List Nat))
    (pf : List Nat → List Nat → Bool) (st : BoltStore) (logs : List RaftLog)
    (hU : ∀ l ∈ logs, l.index < U64) :
    ((∃ l ∈ logs, enc l = none ∨
        ∃ v, enc l = some v ∧ pf (uint64ToBytes l.index) v = true) →
      ∀ commitFail, StoreLogs enc pf commitFail st logs = (st, false)) ∧
    StoreLogs enc pf true st logs = (st, false) ∧
    ((∀ l ∈ logs, ∃ v, enc l = some v ∧ pf (uint64ToBytes l.index) v = false) →
      (StoreLogs enc pf false st logs).2 = true ∧
      (StoreLogs enc pf false st logs).1.conf = st.conf ∧
      ∀ l1 l l2, logs = l1 ++ l :: l2 → (∀ q ∈ l2, q.index ≠ l.index) →
        bucketGet (StoreLogs enc pf false st logs).1.logs
          (uint64ToBytes l.index) = enc l) := by
  refine ⟨?_, ?_, ?_⟩
  · intro hfail commitFail
    rw [StoreLogs, storeLogsLoop_none enc pf logs st.logs hfail]
  · rw [StoreLogs]
    cases storeLogsLoop enc pf st.logs logs with
    | none => rfl
    | some b => rfl
  · intro hsucc
    obtain ⟨b, hb⟩ := storeLogsLoop_some enc pf logs st.logs hsucc
    have hSL : StoreLogs enc pf false st logs = ({ st with logs := b }, true) := by
      rw [StoreLogs, hb]
      rfl
    rw [hSL]
    refine ⟨rfl, rfl, ?_⟩
    intro l1 l l2 hsplit hlast
    subst hsplit
    rw [storeLogsLoop_append] at hb
    cases hb1 : storeLogsLoop enc pf st.logs l1 with
    | none => rw [hb1] at hb; cases hb
    | some b1 =>
      rw [hb1] at hb
      rw [Option.some_bind] at hb
      obtain ⟨v, hv, hpf⟩ := hsucc l (by simp)
      simp only [storeLogsLoop, hv, hpf, Bool.false_eq_true, if_false] at hb
      have hne : ∀ q ∈ l2, uint64ToBytes q.index ≠ uint64ToBytes l.index := by
        intro q hq he
        refine hlast q hq ?_
        refine uint64ToBytes_inj _ _ ?_ ?_ he
        · exact hU q (by simp [hq])
        · exact hU l (by simp)
      rw [storeLogsLoop_get_stable enc pf (uint64ToBytes l.index) l2 _ b hne hb]
      rw [bucketGet_bucketPut_self]
      exact hv.symm

/-- Witness for C3: a batch whose second record fails to serialize leaves
an empty store untouched, and a fully successful batch stores each record
under its own key. -/
theorem claimC3_storeLogs_atomic_witness :
    StoreLogs (fun l => if l.index = 2 then none else some (encodeMsgPack l))
        (fun _ _ => false) false emptyStore
        [⟨1, 0, 0, [10]⟩, ⟨2, 0, 0, [20]⟩] = (emptyStore, false) ∧
    bucketGet (StoreLogs (fun l => some (encodeMsgPack l)) (fun _ _ => false)
        false emptyStore [⟨1, 0, 0, [10]⟩, ⟨2, 0, 0, [20]⟩]).1.logs
        (uint64ToBytes 2) = some (encodeMsgPack ⟨2, 0, 0, [20]⟩) := by
  constructor
  · exact (claimC3_storeLogs_atomic
      (fun l => if l.index = 2 then none else some (encodeMsgPack l))
      (fun _ _ => false) emptyStore [⟨1, 0, 0, [10]⟩, ⟨2, 0, 0, [20]⟩]
      (by decide)).1
      ⟨⟨2, 0, 0, [20]⟩, by decide, Or.inl rfl⟩ false
  · have h := (claimC3_storeLogs_atomic (fun l => some (encodeMsgPack l))
      (fun _ _ => false) emptyStore [⟨1, 0, 0, [10]⟩, ⟨2, 0, 0, [20]⟩]
      (by decide)).2.2 (fun l _ => ⟨encodeMsgPack l, rfl, rfl⟩)
    exact h.2.2 [⟨1, 0, 0, [10]⟩] ⟨2, 0, 0, [20]⟩ [] rfl (by simp)

/-! ## Claim C6: linear-scan GetLog versus point-lookup GetLog -/

theorem wfLogs_tail (kv : List Nat × List Nat) (rest : Bucket)
    (h : wfLogs (kv :: rest)) : wfLogs rest :=
  ⟨(List.pairwise_cons.mp h.1).2, fun x hx => h.2 x (List.mem_cons_of_mem _ hx)⟩

theorem getLogScan_eq_bucketGet (idx : Nat) (hidx : idx < U64) :
    ∀ l : Bucket, wfLogs l → getLogScan l idx = bucketGet l (uint64ToBytes idx) := by
  intro l
  induction l with
  | nil => intro _; rfl
  | cons kv rest ih =>
    intro hwf
    have hk := wfLogs_key (kv :: rest) hwf (List.mem_cons_self _ _)
    rcases Nat.lt_trichotomy (bytesToUint64 kv.1) idx with hlt | heq | hgt
    · have hne : kv.1 ≠ uint64ToBytes idx := by
        intro he
        rw [he, bytesToUint64_uint64ToBytes idx hidx] at hlt
        omega
      have h1 : (bytesToUint64 kv.1 = idx) = False := by simp; omega
      have h2 : (bytesToUint64 kv.1 > idx) = False := by simp; omega
      simp only [getLogScan, h1, h2, if_false, bucketGet, hne, not_false_iff, if_neg]
      exact ih (wfLogs_tail kv rest hwf)
    · have he : kv.1 = uint64ToBytes idx := by
        rw [hk.2, heq]
      simp only [getLogScan, bucketGet, he, bytesToUint64_uint64ToBytes idx hidx]
      simp
    · have hne : kv.1 ≠ uint64ToBytes idx := by
        intro he
        rw [he, bytesToUint64_uint64ToBytes idx hidx] at hgt
        omega
      have h1 : (bytesToUint64 kv.1 = idx) = False := by simp; omega
      have h2 : (bytesToUint64 kv.1 > idx) = True := by simp; omega
      have hrest : bucketGet rest (uint64ToBytes idx) = none := by
        rw [bucketGet_eq_none_iff]
        intro kv2 hkv2 he2
        have hk2 := wfLogs_key (kv :: rest) hwf (List.mem_cons_of_mem _ hkv2)
        have hpw := wfLogs_pairwise_idx _ hwf
        have hlt2 := (List.pairwise_cons.mp hpw).1 kv2 hkv2
        rw [he2, bytesToUint64_uint64ToBytes idx hidx] at hlt2
        omega
      simp only [getLogScan, h1, h2, if_false, if_true, bucketGet, hne,
        not_false_iff, if_neg, hrest]

/-- Counterexample to C6 as stated: on a store whose entry at index 1 holds
a value that does not deserialize, the point-lookup GetLog surfaces the
deserialization failure while the historical linear-scan variant discards
it and reports success with the caller's record untouched, so the two
variants do not return the same result on every store state. -/
theorem claimC6_counterexample :
    GetLogLinear ⟨[(uint64ToBytes 1, [7])], []⟩ 1 ⟨9, 9, 9, []⟩
        = .ok ⟨9, 9, 9, []⟩ ∧
    GetLog ⟨[(uint64ToBytes 1, [7])], []⟩ 1 = .error .corruptRecord := by
  constructor
  · rfl
  · rfl

/-- C6 as amended: on every well-formed store state all of whose stored
values deserialize (in particular on every state produced by storeLogs,
whose values are codec outputs), the historical linear-scan GetLog and the
canonical point-lookup GetLog return the same result: the same record on
success and LogNotFound in exactly the same cases. -/
theorem claimC6_scan_equiv (st : BoltStore) (idx : Nat) (log0 : RaftLog)
    (hwf : wfStore st) (hidx : idx < U64)
    (hdec : ∀ kv ∈ st.logs, (decodeMsgPack kv.2).isSome = true) :
    GetLogLinear st idx log0 = GetLog st idx := by
  have hscan := getLogScan_eq_bucketGet idx hidx st.logs hwf.1
  cases hg : bucketGet st.logs (uint64ToBytes idx) with
  | none =>
    rw [hg] at hscan
    rw [GetLog_of_get_none st idx hg]
    simp only [GetLogLinear, hscan]
  | some v =>
    rw [hg] at hscan
    obtain ⟨r, hr⟩ := Option.isSome_iff_exists.mp
      (hdec (uint64ToBytes idx, v) (bucketGet_mem _ _ _ hg))
    rw [GetLog_of_get_decode st idx v r hg hr]
    simp only [GetLogLinear, hscan, hr, Option.getD_some]

/-- Witness for the amended C6 on a concrete store and an absent index. -/
theorem claimC6_scan_equiv_witness :
    wfStore ⟨[(uint64ToBytes 1, encodeMsgPack ⟨1, 0, 0, [10]⟩)], []⟩ ∧
    (2 : Nat) < U64 ∧
    GetLogLinear ⟨[(uint64ToBytes 1, encodeMsgPack ⟨1, 0, 0, [10]⟩)], []⟩ 2 ⟨0, 0, 0, []⟩
      = GetLog ⟨[(uint64ToBytes 1, encodeMsgPack ⟨1, 0, 0, [10]⟩)], []⟩ 2 := by
  refine ⟨by decide, by decide, ?_⟩
  exact claimC6_scan_equiv ⟨[(uint64ToBytes 1, encodeMsgPack ⟨1, 0, 0, [10]⟩)], []⟩ 2
    ⟨0, 0, 0, []⟩ (by decide) (by decide) (by decide)

/-! ## Claim C10: the seek-based GetLog returns the successor entry -/

theorem dropWhile_head_false {α : Type} (p : α → Bool) :
    ∀ (l : List α) (kv : α) (tl : List α),
      l.dropWhile p = kv :: tl → p kv = false := by
  intro l
  induction l with
  | nil => intro kv tl h; cases h
  | cons a l ih =>
    intro kv tl h
    rw [List.dropWhile_cons] at h
    by_cases hpa : p a = true
    · rw [if_pos hpa] at h
      exact ih kv tl h
    · rw [if_neg hpa] at h
      injection h with h1 _
      subst h1
      simp only [Bool.not_eq_true] at hpa
      exact hpa

theorem wfLogs_lexLt_iff (b : Bucket) (hwf : wfLogs b) (t : Nat) (ht : t < U64) :
    ∀ kv ∈ b, (lexLt kv.1 (uint64ToBytes t) = true ↔ bytesToUint64 kv.1 < t) := by
  intro kv hkv
  have hk := wfLogs_key b hwf hkv
  constructor
  · intro h
    rw [hk.2] at h
    exact (lexLt_uint64ToBytes _ _ hk.1 ht).mp h
  · intro h
    rw [hk.2]
    exact (lexLt_uint64ToBytes _ _ hk.1 ht).mpr h

/-- C10: the historical seek-based GetLog returns the record stored under
the smallest stored index at least the requested one (when that value
deserializes), and reports LogNotFound exactly when every stored index is
below the requested one. -/
theorem claimC10_seek_successor (st : BoltStore) (idx : Nat) (log0 : RaftLog)
    (hwf : wfStore st) (hidx : idx < U64) :
    (GetLogSeek st idx log0 = .error .logNotFound ↔
      ∀ kv ∈ st.logs, bytesToUint64 kv.1 < idx) ∧
    (∀ j v r, j < U64 → (uint64ToBytes j, v) ∈ st.logs → idx ≤ j →
      (∀ kv ∈ st.logs, idx ≤ bytesToUint64 kv.1 → j ≤ bytesToUint64 kv.1) →
      decodeMsgPack v = some r → GetLogSeek st idx log0 = .ok r) := by
  have hiff := wfLogs_lexLt_iff st.logs hwf.1 idx hidx
  constructor
  · constructor
    · intro h kv hkv
      cases hd : st.logs.dropWhile (fun kv => lexLt kv.1 (uint64ToBytes idx)) with
      | cons kv0 tl => simp only [GetLogSeek, hd] at h; cases h
      | nil =>
        have hall := List.dropWhile_eq_nil_iff.mp hd
        exact (hiff kv hkv).mp (hall kv hkv)
    · intro hall
      have hd : st.logs.dropWhile (fun kv => lexLt kv.1 (uint64ToBytes idx)) = [] :=
        List.dropWhile_eq_nil_iff.mpr
          (fun kv hkv => (hiff kv hkv).mpr (hall kv hkv))
      simp only [GetLogSeek, hd]
  · intro j v r hj hmem hle hmin hdec
    cases hd : st.logs.dropWhile (fun kv => lexLt kv.1 (uint64ToBytes idx)) with
    | nil =>
      exfalso
      have hall := List.dropWhile_eq_nil_iff.mp hd
      have := (hiff _ hmem).mp (hall _ hmem)
      rw [bytesToUint64_uint64ToBytes j hj] at this
      omega
    | cons kv0 tl =>
      have hkv0dw : kv0 ∈ st.logs.dropWhile
          (fun kv => lexLt kv.1 (uint64ToBytes idx)) := by
        rw [hd]
        exact List.mem_cons_self _ _
      have hkv0 : kv0 ∈ st.logs := by
        have hsub : (st.logs.dropWhile
            (fun kv => lexLt kv.1 (uint64ToBytes idx))).Sublist st.logs :=
          List.dropWhile_sublist _
        exact hsub.subset hkv0dw
      have hp0 := dropWhile_head_false _ st.logs kv0 tl hd
      have hge0 : idx ≤ bytesToUint64 kv0.1 := by
        have hi0 := hiff kv0 hkv0
        have : ¬ bytesToUint64 kv0.1 < idx := fun hlt => by
          rw [hi0.mpr hlt] at hp0
          cases hp0
        omega
      have hj0 : j ≤ bytesToUint64 kv0.1 := hmin kv0 hkv0 hge0
      have hmemdw : (uint64ToBytes j, v) ∈ st.logs.dropWhile
          (fun kv => lexLt kv.1 (uint64ToBytes idx)) := by
        have hsplit := List.takeWhile_append_dropWhile
          (fun kv : List Nat × List Nat => lexLt kv.1 (uint64ToBytes idx)) st.logs
        have hmem2 := hmem
        rw [← hsplit] at hmem2
        rcases List.mem_append.mp hmem2 with htw | hdw
        · exfalso
          have hptw := List.mem_takeWhile_imp htw
          have := (hiff _ hmem).mp hptw
          rw [bytesToUint64_uint64ToBytes j hj] at this
          omega
        · exact hdw
      rw [hd] at hmemdw
      rcases List.mem_cons.mp hmemdw with heq | htl
      · simp only [GetLogSeek, hd, ← heq, hdec, Option.getD_some]
      · exfalso
        have hpw : (kv0 :: tl).Pairwise
            (fun x y => bytesToUint64 x.1 < bytesToUint64 y.1) := by
          have hpwl := wfLogs_pairwise_idx st.logs hwf.1
          have hsub : (st.logs.dropWhile
              (fun kv => lexLt kv.1 (uint64ToBytes idx))).Sublist st.logs :=
            List.dropWhile_sublist _
          rw [hd] at hsub
          exact hpwl.sublist hsub
        have := (List.pairwise_cons.mp hpw).1 _ htl
        rw [bytesToUint64_uint64ToBytes j hj] at this
        omega

/-- Witness for C10: seeking index 2 on a store holding indices 1 and 3
returns the record stored at index 3. -/
theorem claimC10_seek_successor_witness :
    wfStore ⟨[(uint64ToBytes 1, encodeMsgPack ⟨1, 0, 0, [10]⟩),
              (uint64ToBytes 3, encodeMsgPack ⟨3, 0, 0, [30]⟩)], []⟩ ∧
    (2 : Nat) < U64 ∧
    GetLogSeek ⟨[(uint64ToBytes 1, encodeMsgPack ⟨1, 0, 0, [10]⟩),
              (uint64ToBytes 3, encodeMsgPack ⟨3, 0, 0, [30]⟩)], []⟩ 2 ⟨0, 0, 0, []⟩
      = .ok ⟨3, 0, 0, [30]⟩ := by
  refine ⟨by decide, by decide, ?_⟩
  exact (claimC10_seek_successor ⟨[(uint64ToBytes 1, encodeMsgPack ⟨1, 0, 0, [10]⟩),
      (uint64ToBytes 3, encodeMsgPack ⟨3, 0, 0, [30]⟩)], []⟩ 2 ⟨0, 0, 0, []⟩
      (by decide) (by decide)).2 3 (encodeMsgPack ⟨3, 0, 0, [30]⟩) ⟨3, 0, 0, [30]⟩
      (by decide) (by decide) (by decide) (by decide) (by decide)

/-! ## Claim C7: migration failure atomicity -/

/-- Counterexample to C7 as stated: when `New` on the destination fails
after the engine open has already created the destination file (no file
existed beforehand), `MigrateToV2` returns the error without removing
anything — the source has no `os.Remove` in that branch — so a destination
file remains on disk after a failing step. -/
theorem claimC7_counterexample :
    (MigrateToV2 ⟨false, false, true, true, false, false, false, false⟩
        ⟨emptyStore, none⟩).1 = none ∧
    (MigrateToV2 ⟨false, false, true, true, false, false, false, false⟩
        ⟨emptyStore, none⟩).2.dest = some (FileData.db emptyStore) :=
  ⟨rfl, rfl⟩

/-- C7 as amended: if the destination path already exists, migration fails
before touching anything and the world (in particular the pre-existing
destination file) is unchanged byte for byte; and when the destination
creation step itself does not fail, any failure of a later step (beginning
the destination write transaction, copying either partition, or
committing) leaves no destination file on disk. -/
theorem claimC7_migrate_cleanup (f : MigFailures) (w : MigState) :
    (∀ fd, w.dest = some fd → MigrateToV2 f w = (none, w)) ∧
    (w.dest = none → f.destNewFail = false → (MigrateToV2 f w).1 = none →
      (MigrateToV2 f w).2.dest = none) := by
  constructor
  · intro fd h
    simp [MigrateToV2, h]
  · intro hd hnf h
    obtain ⟨f1, f2, f3, f4, f5, f6, f7, f8⟩ := f
    simp only at hnf
    subst hnf
    cases hw : w.dest with
    | some fd => rw [hw] at hd; cases hd
    | none =>
      cases f1 <;> cases f2 <;> cases f4 <;> cases f5 <;> cases f6 <;> cases f7
        <;> cases f8 <;> simp_all [MigrateToV2]

/-- Witness for the amended C7: a pre-existing destination file survives a
call untouched, and a commit failure leaves no destination file. -/
theorem claimC7_migrate_cleanup_witness :
    MigrateToV2 ⟨false, false, false, false, false, false, false, true⟩
        ⟨emptyStore, some (FileData.raw [1, 2])⟩
      = (none, ⟨emptyStore, some (FileData.raw [1, 2])⟩) ∧
    (MigrateToV2 ⟨false, false, false, false, false, false, false, true⟩
        ⟨emptyStore, none⟩).2.dest = none := by
  constructor
  · exact (claimC7_migrate_cleanup ⟨false, false, false, false, false, false, false, true⟩
      ⟨emptyStore, some (FileData.raw [1, 2])⟩).1 (FileData.raw [1, 2]) rfl
  · exact (claimC7_migrate_cleanup ⟨false, false, false, false, false, false, false, true⟩
      ⟨emptyStore, none⟩).2 rfl rfl rfl

/-! ## Claim C8: migration success copies both partitions verbatim -/

/-- C8: a successful `MigrateToV2` produces a destination whose "logs" and
"conf" partitions hold exactly the source's (key, value) pairs byte for
byte; consequently GetLog agrees with the source on every index, and
FirstIndex/LastIndex equal the source's.  The returned handle is the
content of the destination file. -/
theorem claimC8_migrate_verbatim (f : MigFailures) (w : MigState) (d : BoltStore)
    (hwf : wfStore w.src) (h : (MigrateToV2 f w).1 = some d) :
    d.logs = w.src.logs ∧ d.conf = w.src.conf ∧
    (MigrateToV2 f w).2.dest = some (FileData.db d) ∧
    (∀ idx, GetLog d idx = GetLog w.src idx) ∧
    FirstIndex d = FirstIndex w.src ∧ LastIndex d = LastIndex w.src := by
  cases hdest : w.dest with
  | some fd => simp [MigrateToV2, hdest] at h
  | none =>
    have h1 : f.srcOpenFail = false := by
      by_contra hc
      simp only [Bool.not_eq_false] at hc
      simp [MigrateToV2, hdest, hc] at h
    have h2 : f.srcBeginFail = false := by
      by_contra hc
      simp only [Bool.not_eq_false] at hc
      simp [MigrateToV2, hdest, h1, hc] at h
    have h3 : f.destNewFail = false := by
      by_contra hc
      simp only [Bool.not_eq_false] at hc
      simp [MigrateToV2, hdest, h1, h2, hc] at h
    have h4 : f.destBeginFail = false := by
      by_contra hc
      simp only [Bool.not_eq_false] at hc
      simp [MigrateToV2, hdest, h1, h2, h3, hc] at h
    have h5 : f.confCopyFail = false := by
      by_contra hc
      simp only [Bool.not_eq_false] at hc
      simp [MigrateToV2, hdest, h1, h2, h3, h4, hc] at h
    have h6 : f.logsCopyFail = false := by
      by_contra hc
      simp only [Bool.not_eq_false] at hc
      simp [MigrateToV2, hdest, h1, h2, h3, h4, h5, hc] at h
    have h7 : f.commitFail = false := by
      by_contra hc
      simp only [Bool.not_eq_false] at hc
      simp [MigrateToV2, hdest, h1, h2, h3, h4, h5, h6, hc] at h
    have hM : MigrateToV2 f w
        = (some ⟨copyBucket w.src.logs, copyBucket w.src.conf⟩,
           { w with dest := some (FileData.db
               ⟨copyBucket w.src.logs, copyBucket w.src.conf⟩) }) := by
      simp [MigrateToV2, hdest, h1, h2, h3, h4, h5, h6, h7]
    rw [hM] at h
    simp only [Option.some.injEq] at h
    have hlogs : copyBucket w.src.logs = w.src.logs := copyBucket_eq_self _ hwf.1.1
    have hconf : copyBucket w.src.conf = w.src.conf := copyBucket_eq_self _ hwf.2
    have hd2 : d = w.src := by
      rw [← h, hlogs, hconf]
    refine ⟨by rw [hd2], by rw [hd2], ?_, fun idx => by rw [hd2],
      by rw [hd2], by rw [hd2]⟩
    rw [hM]
    exact congrArg (fun b => some (FileData.db b)) h

/-- Witness for C8 on a one-record source database. -/
theorem claimC8_migrate_verbatim_witness :
    wfStore ⟨[(uint64ToBytes 1, [10])], [([2], [20])]⟩ ∧
    (MigrateToV2 ⟨false, false, false, false, false, false, false, false⟩
        ⟨⟨[(uint64ToBytes 1, [10])], [([2], [20])]⟩, none⟩).1
      = some ⟨[(uint64ToBytes 1, [10])], [([2], [20])]⟩ ∧
    (⟨[(uint64ToBytes 1, [10])], [([2], [20])]⟩ : BoltStore).logs
      = [(uint64ToBytes 1, [10])] := by
  refine ⟨by decide, by decide, ?_⟩
  exact (claimC8_migrate_verbatim ⟨false, false, false, false, false, false, false, false⟩
    ⟨⟨[(uint64ToBytes 1, [10])], [([2], [20])]⟩, none⟩
    ⟨[(uint64ToBytes 1, [10])], [([2], [20])]⟩ (by decide) (by decide)).1

/-! ## Preservation of the engine invariants: the well-formedness
hypotheses of the claims above hold on every state reachable through the
store operations from a freshly initialized store. -/

theorem lexLt_total (x : List Nat) : ∀ y : List Nat,
    x = y ∨ lexLt x y = true ∨ lexLt y x = true := by
  induction x with
  | nil =>
    intro y
    cases y with
    | nil => exact Or.inl rfl
    | cons b bs => exact Or.inr (Or.inl rfl)
  | cons a as ih =>
    intro y
    cases y with
    | nil => exact Or.inr (Or.inr rfl)
    | cons b bs =>
      rcases Nat.lt_trichotomy a b with hab | hab | hab
      · refine Or.inr (Or.inl ?_)
        simp [lexLt, hab]
      · subst hab
        rcases ih bs with h | h | h
        · exact Or.inl (by rw [h])
        · exact Or.inr (Or.inl (by simp [lexLt, h]))
        · exact Or.inr (Or.inr (by simp [lexLt, h]))
      · refine Or.inr (Or.inr ?_)
        simp [lexLt, hab]

theorem lexLt_trans (x : List Nat) : ∀ y z : List Nat,
    lexLt x y = true → lexLt y z = true → lexLt x z = true := by
  induction x with
  | nil =>
    intro y z hxy hyz
    cases y with
    | nil => cases hxy
    | cons b bs =>
      cases z with
      | nil => cases hyz
      | cons c cs => rfl
  | cons a as ih =>
    intro y z hxy hyz
    cases y with
    | nil => cases hxy
    | cons b bs =>
      cases z with
      | nil => cases hyz
      | cons c cs =>
        simp only [lexLt, Bool.or_eq_true, decide_eq_true_eq, beq_iff_eq,
          Bool.and_eq_true] at hxy hyz ⊢
        rcases hxy with h1 | ⟨rfl, h1⟩ <;> rcases hyz with h2 | ⟨rfl, h2⟩
        · exact Or.inl (by omega)
        · exact Or.inl h1
        · exact Or.inl h2
        · exact Or.inr ⟨rfl, ih bs cs h1 h2⟩

theorem mem_bucketPut (b : Bucket) (k v : List Nat) :
    ∀ x ∈ bucketPut b k v, x = (k, v) ∨ x ∈ b := by
  induction b with
  | nil =>
    intro x hx
    simp only [bucketPut, List.mem_singleton] at hx
    exact Or.inl hx
  | cons kv0 rest ih =>
    intro x hx
    simp only [bucketPut] at hx
    by_cases h1 : lexLt k kv0.1 = true
    · rw [if_pos h1] at hx
      rcases List.mem_cons.mp hx with rfl | hx2
      · exact Or.inl rfl
      · exact Or.inr hx2
    · rw [if_neg h1] at hx
      by_cases h2 : k = kv0.1
      · rw [if_pos h2] at hx
        rcases List.mem_cons.mp hx with rfl | hx2
        · exact Or.inl rfl
        · exact Or.inr (List.mem_cons_of_mem _ hx2)
      · rw [if_neg h2] at hx
        rcases List.mem_cons.mp hx with rfl | hx2
        · exact Or.inr (List.mem_cons_self _ _)
        · rcases ih x hx2 with h | h
          · exact Or.inl h
          · exact Or.inr (List.mem_cons_of_mem _ h)

theorem wfBucket_bucketPut (b : Bucket) (k v : List Nat) (hwf : wfBucket b) :
    wfBucket (bucketPut b k v) := by
  induction b with
  | nil =>
    rw [wfBucket]
    exact List.pairwise_singleton _ _
  | cons kv0 rest ih =>
    rw [wfBucket, List.pairwise_cons] at hwf
    simp only [bucketPut]
    by_cases h1 : lexLt k kv0.1 = true
    · rw [if_pos h1, wfBucket, List.pairwise_cons]
      refine ⟨?_, List.pairwise_cons.mpr hwf⟩
      intro y hy
      rcases List.mem_cons.mp hy with rfl | hy2
      · exact h1
      · exact lexLt_trans k kv0.1 y.1 h1 (hwf.1 y hy2)
    · rw [if_neg h1]
      by_cases h2 : k = kv0.1
      · rw [if_pos h2, wfBucket, List.pairwise_cons]
        refine ⟨?_, hwf.2⟩
        intro y hy
        rw [h2]
        exact hwf.1 y hy
      · rw [if_neg h2, wfBucket, List.pairwise_cons]
        have h3 : lexLt kv0.1 k = true := by
          rcases lexLt_total k kv0.1 with h | h | h
          · exact absurd h h2
          · exact absurd h h1
          · exact h
        refine ⟨?_, ih hwf.2⟩
        intro y hy
        rcases mem_bucketPut rest k v y hy with rfl | hy2
        · exact h3
        · exact hwf.1 y hy2

theorem wfLogs_bucketPut (b : Bucket) (i : Nat) (v : List Nat)
    (hwf : wfLogs b) (hi : i < U64) : wfLogs (bucketPut b (uint64ToBytes i) v) := by
  refine ⟨wfBucket_bucketPut b _ v hwf.1, ?_⟩
  intro kv hkv
  rcases mem_bucketPut b _ v kv hkv with rfl | hkv2
  · exact validKey_uint64ToBytes i hi
  · exact hwf.2 kv hkv2

theorem storeLogsLoop_wfLogs (enc : RaftLog → Option (List Nat))
    (pf : List Nat → List Nat → Bool) :
    ∀ (logs : List RaftLog) (bucket b : Bucket), wfLogs bucket →
    (∀ l ∈ logs, l.index < U64) →
    storeLogsLoop enc pf bucket logs = some b → wfLogs b := by
  intro logs
  induction logs with
  | nil => intro bucket b hwf _ h; cases h; exact hwf
  | cons x xs ih =>
    intro bucket b hwf hU h
    cases henc : enc x with
    | none => simp only [storeLogsLoop, henc] at h; cases h
    | some val =>
      simp only [storeLogsLoop, henc] at h
      by_cases hpf : pf (uint64ToBytes x.index) val = true
      · rw [if_pos hpf] at h; cases h
      · simp only [Bool.not_eq_true] at hpf
        rw [hpf] at h
        simp only [Bool.false_eq_true, if_false] at h
        exact ih _ b
          (wfLogs_bucketPut bucket x.index val hwf (hU x (List.mem_cons_self _ _)))
          (fun l hl => hU l (List.mem_cons_of_mem _ hl)) h

/-- Every state StoreLogs leaves behind, success or failure, is
well-formed when the starting state is. -/
theorem wfStore_StoreLogs (enc : RaftLog → Option (List Nat))
    (pf : List Nat → List Nat → Bool) (cf : Bool) (st : BoltStore)
    (logs : List RaftLog) (hwf : wfStore st) (hU : ∀ l ∈ logs, l.index < U64) :
    wfStore (StoreLogs enc pf cf st logs).1 := by
  rw [StoreLogs]
  cases hb : storeLogsLoop enc pf st.logs logs with
  | none => exact hwf
  | some b =>
    cases cf with
    | true => exact hwf
    | false =>
      exact ⟨storeLogsLoop_wfLogs enc pf logs st.logs b hwf.1 hU hb, hwf.2⟩

theorem wfLogs_sublist (b2 b : Bucket) (hs : b2.Sublist b) (hwf : wfLogs b) :
    wfLogs b2 :=
  ⟨hwf.1.sublist hs, fun kv hkv => hwf.2 kv (hs.subset hkv)⟩

theorem deleteRangeLoop_sublist (mx : Nat) :
    ∀ l : Bucket, (deleteRangeLoop mx l).Sublist l := by
  intro l
  induction l with
  | nil => exact List.Sublist.refl _
  | cons kv rest ih =>
    simp only [deleteRangeLoop]
    by_cases h : bytesToUint64 kv.1 > mx
    · rw [if_pos h]
    · rw [if_neg h]
      exact ih.trans (List.sublist_cons_self _ _)

/-- DeleteRange leaves a well-formed state behind. -/
theorem wfStore_DeleteRange (st : BoltStore) (mn mx : Nat) (hwf : wfStore st) :
    wfStore (DeleteRange st mn mx) := by
  refine ⟨?_, hwf.2⟩
  have hDR : (DeleteRange st mn mx).logs
      = st.logs.takeWhile (fun kv => lexLt kv.1 (uint64ToBytes mn)) ++
          deleteRangeLoop mx
            (st.logs.dropWhile (fun kv => lexLt kv.1 (uint64ToBytes mn))) := rfl
  rw [hDR]
  refine wfLogs_sublist _ st.logs ?_ hwf.1
  conv_rhs =>
    rw [← List.takeWhile_append_dropWhile
      (fun kv : List Nat × List Nat => lexLt kv.1 (uint64ToBytes mn)) st.logs]
  exact (deleteRangeLoop_sublist mx _).append_left _

/-- Set leaves a well-formed state behind. -/
theorem wfStore_Set (st : BoltStore) (k v : List Nat) (hwf : wfStore st) :
    wfStore (Set st k v) :=
  ⟨hwf.1, wfBucket_bucketPut st.conf k v hwf.2⟩

/-- The freshly initialized store is well-formed. -/
theorem wfStore_emptyStore : wfStore emptyStore :=
  ⟨⟨List.Pairwise.nil, fun kv hkv => absurd hkv (List.not_mem_nil kv)⟩,
   List.Pairwise.nil⟩

end RaftBoltDB
